import Mathlib

/-!
Shallow embedding of `ruin.py`: a simulation of risk-taking across exchanges
with risk premiums and a proportional chance of ruin.  Exchanges resolve one
stochastic outcome per step and push payoffs to registered traders; traders
accumulate payoffs into per-exchange balances and lazily record a clamped
balance history.  Randomness is modelled as explicit streams of draws.
-/

/-- Sentinel payoff for a catastrophic loss (`NEGATIVE_INFINITY = -10000`). -/
def NEGATIVE_INFINITY : ℝ := -10000

/-- Number of steps used by `main` (`NUM_STEPS = 2600`). -/
def NUM_STEPS : ℕ := 2600

/-- Number of exchanges used by `main` (`NUM_EXCHANGES = 8`). -/
def NUM_EXCHANGES : ℕ := 8

/-- Bets per trader used by `main` (`BETS_PER_TRADER = 2`). -/
def BETS_PER_TRADER : ℕ := 2

/-- Riskiest exchange parameter (`MAX_RISK = 30`). -/
def MAX_RISK : ℕ := 30

/-- Exponent by which ruin risk decreases as z increases (`RUIN_DECAY = 2`). -/
def RUIN_DECAY : ℕ := 2

/-- Exponent by which the risk premium decreases as z increases
(`PREMIUM_DECAY = 2.6`). -/
noncomputable def PREMIUM_DECAY : ℝ := 2.6

/-- Maximum risk premium (`MAX_PREMIUM = 0.0009`). -/
noncomputable def MAX_PREMIUM : ℝ := 0.0009

/-- Mean of the per-tick return distribution (`RETURN_MEAN = 0`). -/
def RETURN_MEAN : ℝ := 0

/-- Standard deviation of the per-tick return distribution
(`RETURN_STD = 0.007`). -/
noncomputable def RETURN_STD : ℝ := 0.007

/-- The process-wide pseudorandom source (`np.random`), modelled as two
streams of draws (integer draws and standard-normal draws) together with the
positions of the next unconsumed draw in each stream. -/
structure Rng where
  ints : ℕ → ℕ
  gauss : ℕ → ℝ
  int_pos : ℕ
  gauss_pos : ℕ

/-- `np.random.randint(0, hi)`: consume one integer draw and reduce it into
`[0, hi)`.  For `hi = 1` the result is `0` whatever the stream holds. -/
def randint (rng : Rng) (hi : ℕ) : ℕ × Rng :=
  (rng.ints rng.int_pos % hi, { rng with int_pos := rng.int_pos + 1 })

/-- `np.random.normal(mean, std)`: consume one standard-normal draw `g` and
return `mean + std * g`. -/
def normal_draw (rng : Rng) (mean std : ℝ) : ℝ × Rng :=
  (mean + std * rng.gauss rng.gauss_pos, { rng with gauss_pos := rng.gauss_pos + 1 })

/-- An exchange (`class Exchange`): risk parameter `z`, the registered
traders (as indices into the simulation's trader list), the failure flag
`is_dead` and the derived return premium. -/
structure Exchange where
  z : ℕ
  traders : List ℕ
  is_dead : Bool
  premium : ℝ

/-- The `rank` computed in `Exchange.__init__`:
`(float(z) - MAX_RISK) / (NUM_EXCHANGES - 1)`, with the constants promoted to
parameters. -/
noncomputable def exchange_rank (z num_exchanges max_risk : ℕ) : ℝ :=
  ((z : ℝ) - (max_risk : ℝ)) / ((num_exchanges : ℝ) - 1)

/-- `Exchange.__init__`: stores `z`, an empty trader list, a live failure
flag, and the premium `(1 - rank) ** PREMIUM_DECAY * MAX_PREMIUM`. -/
noncomputable def Exchange.init (z num_exchanges max_risk : ℕ) : Exchange :=
  { z := z
    traders := []
    is_dead := false
    premium := (1 - exchange_rank z num_exchanges max_risk) ^ PREMIUM_DECAY * MAX_PREMIUM }

/-- A trader (`class Trader`): its id, the list of `z` values of the
exchanges it is allocated to (one entry per bet, duplicates meaning repeated
bets on one exchange), the per-`z` balance map, the per-`z` recorded balance
series, and the last observed tick. -/
structure Trader where
  trader_id : ℕ
  exchanges : List ℕ
  account_balance : ℕ → ℝ
  account_series : ℕ → List ℝ
  tick : ℕ

/-- `Trader.__init__` (pure part): balances default to `0.0` and receive
`BET_SIZE` once per allocation entry, so the balance at `z` is
`bet_size * (number of allocations to z)`; the series of each held `z` is
seeded with that initial balance.  Registration with the exchanges is done by
the simulation setup (`build_traders`). -/
def Trader.init (trader_id : ℕ) (zs : List ℕ) (bet_size : ℝ) : Trader :=
  { trader_id := trader_id
    exchanges := zs
    account_balance := fun z => bet_size * (zs.count z : ℝ)
    account_series := fun z => if z ∈ zs then [bet_size * (zs.count z : ℝ)] else []
    tick := 0 }

/-- `Trader.record_balances`: for every distinct `z` among the trader's
allocations, clamp a negative balance to `0.0` and append the (possibly
clamped) balance to that `z`'s series.  The `tick` argument is unused, as in
the source. -/
noncomputable def Trader.record_balances (t : Trader) (_tick : ℕ) : Trader :=
  { t with
    account_balance := fun z =>
      if z ∈ t.exchanges then
        (if t.account_balance z < 0 then 0 else t.account_balance z)
      else t.account_balance z
    account_series := fun z =>
      if z ∈ t.exchanges then
        t.account_series z ++ [if t.account_balance z < 0 then (0 : ℝ) else t.account_balance z]
      else t.account_series z }

/-- `Trader.receive_payoff`: if the notified tick is strictly greater than
the last observed tick, first record balances for the old tick and advance;
then add the payoff to the balance at `z` unconditionally. -/
noncomputable def Trader.receive_payoff (t : Trader) (z : ℕ) (payoff : ℝ) (tick : ℕ) : Trader :=
  let t1 := if tick > t.tick then { t.record_balances t.tick with tick := tick } else t
  { t1 with
    account_balance := fun z2 => if z2 = z then t1.account_balance z2 + payoff else t1.account_balance z2 }

/-- The heap of the simulation: the exchange list, the trader list (exchanges
refer to traders by index) and the random source. -/
structure SimState where
  exchanges : List Exchange
  traders : List Trader
  rng : Rng

/-- Apply `f` to the trader at index `i` (identity when out of range; in the
source registered references are always valid). -/
def update_trader (ts : List Trader) (i : ℕ) (f : Trader → Trader) : List Trader :=
  match ts[i]? with
  | some t => ts.set i (f t)
  | none => ts

/-- The notification loop at the end of `Exchange.tick`:
`for t in self.traders: t.receive_payoff(self.z, payoff, tick_num)`. -/
noncomputable def notify_traders (ts : List Trader) (ids : List ℕ) (z : ℕ) (payoff : ℝ)
    (tick_num : ℕ) : List Trader :=
  ids.foldl (fun acc i => update_trader acc i (fun t => t.receive_payoff z payoff tick_num)) ts

/-- `Exchange.tick` for the exchange at index `j` of the state: a dead
exchange pays `0.0` without drawing; otherwise one uniform draw in
`[0, z ** RUIN_DECAY)` decides between catastrophic failure (payoff
`NEGATIVE_INFINITY`, `is_dead` set) and a normal-return payoff; finally every
registered trader is notified in registration order. -/
noncomputable def tick_exchange (s : SimState) (j tick_num : ℕ) : SimState :=
  match s.exchanges[j]? with
  | none => s
  | some e =>
    if e.is_dead then
      { s with traders := notify_traders s.traders e.traders e.z 0 tick_num }
    else
      let dr := randint s.rng (e.z ^ RUIN_DECAY)
      if dr.1 = 0 then
        { exchanges := s.exchanges.set j { e with is_dead := true }
          traders := notify_traders s.traders e.traders e.z NEGATIVE_INFINITY tick_num
          rng := dr.2 }
      else
        let pr := normal_draw dr.2 (RETURN_MEAN + e.premium) RETURN_STD
        { exchanges := s.exchanges
          traders := notify_traders s.traders e.traders e.z pr.1 tick_num
          rng := pr.2 }

/-- The inner loop of `run_simulation`: tick every exchange once, in order. -/
noncomputable def step_exchanges (s : SimState) (tick_num : ℕ) : SimState :=
  (List.range s.exchanges.length).foldl (fun st j => tick_exchange st j tick_num) s

/-- `run_simulation`: for `i` in `0..steps-1`, tick every exchange with tick
number `i`. -/
noncomputable def run_simulation (s : SimState) (steps : ℕ) : SimState :=
  (List.range steps).foldl (fun st i => step_exchanges st i) s

/-- `contiguous_sublists_size_n(l, n) = [l[i : i + n] for i in range(0, len(l) - (n - 1))]`. -/
def contiguous_sublists_size_n (l : List α) (n : ℕ) : List (List α) :=
  (List.range (l.length - (n - 1))).map (fun i => (l.drop i).take n)

/-- The flattened allocation list built at the start of `generate_traders`:
for each exchange in order, append it `bets_per_trader` times. -/
def exchanges_perm (l : List α) (bets_per_trader : ℕ) : List α :=
  l.foldl (fun acc e => acc ++ List.replicate bets_per_trader e) []

/-- `generate_exchanges`: exchanges with risk parameters
`max_risk, max_risk + 1, …, max_risk + num_exchanges - 1`. -/
noncomputable def generate_exchanges (num_exchanges max_risk : ℕ) : List Exchange :=
  (List.range num_exchanges).map (fun z => Exchange.init (z + max_risk) num_exchanges max_risk)

/-- The risk parameter of the exchange at index `j` (dereferencing an
exchange reference in the heap model). -/
def z_at (exchanges : List Exchange) (j : ℕ) : ℕ :=
  ((exchanges[j]?).map Exchange.z).getD 0

/-- The registration loop of `Trader.__init__`:
`for e in self.exchanges: e.register_trader(self)`, appending the trader id
to each allocated exchange's notification list, once per allocation entry. -/
def register_all (exchanges : List Exchange) (tid : ℕ) (window : List ℕ) : List Exchange :=
  window.foldl
    (fun exs j =>
      match exs[j]? with
      | some e => exs.set j { e with traders := e.traders ++ [tid] }
      | none => exs)
    exchanges

/-- Sequential construction of
`[Trader(i, exchange_sets[i]) for i in range(len(exchange_sets))]`: each
constructor call stores the window's `z` values and registers the trader with
each allocated exchange. -/
noncomputable def build_traders (bet_size : ℝ) :
    List Exchange → ℕ → List (List ℕ) → List Exchange × List Trader
  | exs, _, [] => (exs, [])
  | exs, i, w :: rest =>
    let t := Trader.init i (w.map (z_at exs)) bet_size
    let exs2 := register_all exs i w
    let r := build_traders bet_size exs2 (i + 1) rest
    (r.1, t :: r.2)

/-- `generate_traders`: flatten the exchange list with each exchange repeated
`bets_per_trader` times, slide a window of size `bets_per_trader` by steps of
1, and construct one trader per window.  The exchanges are handled as indices
into the master list (object references); `BET_SIZE = 1.0 / BETS_PER_TRADER`. -/
noncomputable def generate_traders (exchanges : List Exchange) (bets_per_trader : ℕ) :
    List Exchange × List Trader :=
  build_traders (1 / (bets_per_trader : ℝ)) exchanges 0
    (contiguous_sublists_size_n
      (exchanges_perm (List.range exchanges.length) bets_per_trader) bets_per_trader)

/-- The simulation state built by `main` before the loop:
`generate_exchanges` then `generate_traders`, with an arbitrary random
source. -/
noncomputable def init_state (num_exchanges bets_per_trader max_risk : ℕ) (rng : Rng) :
    SimState :=
  let p := generate_traders (generate_exchanges num_exchanges max_risk) bets_per_trader
  { exchanges := p.1, traders := p.2, rng := rng }

/-- Modelled from the spec (for comparison with `exchanges_perm` only): a
flattened list in round-robin order, `venue0, venue1, …, venueN-1` repeated
`bets_per_trader` times. -/
def spec_round_robin_flatten (l : List α) (bets_per_trader : ℕ) : List α :=
  (List.replicate bets_per_trader l).flatten

theorem exchanges_perm_foldl (l : List α) (b : ℕ) (acc : List α) :
    l.foldl (fun acc e => acc ++ List.replicate b e) acc
      = acc ++ (l.map (List.replicate b)).flatten := by
  induction l generalizing acc with
  | nil => simp
  | cons x xs ih => simp [ih, List.append_assoc]

theorem exchanges_perm_eq (l : List α) (b : ℕ) :
    exchanges_perm l b = (l.map (List.replicate b)).flatten := by
  simpa using exchanges_perm_foldl l b []

theorem exchanges_perm_cons (x : α) (xs : List α) (b : ℕ) :
    exchanges_perm (x :: xs) b = List.replicate b x ++ exchanges_perm xs b := by
  simp [exchanges_perm_eq]

theorem length_exchanges_perm (l : List α) (b : ℕ) :
    (exchanges_perm l b).length = l.length * b := by
  induction l with
  | nil => simp [exchanges_perm]
  | cons x xs ih => simp [exchanges_perm_cons, ih, Nat.succ_mul, Nat.add_comm]

theorem exchanges_perm_getElem (l : List α) (b : ℕ) (j : ℕ) (hj : j < l.length * b) :
    (exchanges_perm l b)[j]? = l[j / b]? := by
  induction l generalizing j with
  | nil => simp at hj
  | cons x xs ih =>
    rw [exchanges_perm_cons]
    rcases Nat.lt_or_ge j b with h | h
    · rw [List.getElem?_append_left (by simpa using h)]
      rw [Nat.div_eq_of_lt h]
      simp [List.getElem?_replicate, h]
    · have hb : 0 < b := Nat.lt_of_lt_of_le (Nat.pos_of_ne_zero (by rintro rfl; simp at hj)) (le_refl b)
      rw [List.getElem?_append_right (by simpa using h)]
      have hlt : j - b < xs.length * b := by
        simp [List.length_cons, Nat.succ_mul] at hj; omega
      rw [List.length_replicate, ih (j - b) hlt]
      rw [Nat.div_eq_sub_div hb h]
      simp

theorem contiguous_length (l : List α) (n : ℕ) :
    (contiguous_sublists_size_n l n).length = l.length - (n - 1) := by
  simp [contiguous_sublists_size_n]

theorem contiguous_getElem (l : List α) (n i : ℕ) (h : i < l.length - (n - 1)) :
    (contiguous_sublists_size_n l n)[i]? = some ((l.drop i).take n) := by
  simp [contiguous_sublists_size_n, List.getElem?_map, List.getElem?_range, h]

theorem take_exchanges_perm_head (x : α) (xs : List α) (b : ℕ) :
    (exchanges_perm (x :: xs) b).take b = List.replicate b x := by
  rw [exchanges_perm_cons, List.take_append_of_le_length (by simp), List.take_replicate]
  simp

theorem drop_exchanges_perm_last (l : List α) (b : ℕ) (hl : l ≠ []) :
    (exchanges_perm l b).drop ((l.length - 1) * b) = List.replicate b (l.getLast hl) := by
  induction l with
  | nil => simp at hl
  | cons x xs ih =>
    rcases xs with _ | ⟨y, ys⟩
    · simp [exchanges_perm_cons, exchanges_perm]
    · rw [exchanges_perm_cons]
      have h1 : (x :: y :: ys).length - 1 = (y :: ys).length := by simp
      rw [h1]
      have h2 : b ≤ (y :: ys).length * b := by
        have : 1 * b ≤ (y :: ys).length * b := Nat.mul_le_mul_right b (by simp)
        simpa using this
      have h3 : (List.replicate b x).length ≤ (y :: ys).length * b := by
        simpa using h2
      rw [List.drop_append_eq_append_drop, List.drop_of_length_le h3,
        List.length_replicate]
      have h4 : (y :: ys).length * b - b = ((y :: ys).length - 1) * b :=
        (Nat.sub_one_mul _ _).symm
      rw [h4, ih (by simp)]
      simp [List.getLast_cons]

theorem register_all_getElem (exs : List Exchange) (tid : ℕ) (w : List ℕ) (j : ℕ) :
    (register_all exs tid w)[j]?
      = (exs[j]?).map (fun e => { e with traders := e.traders ++ List.replicate (w.count j) tid }) := by
  induction w generalizing exs with
  | nil =>
    cases h : exs[j]? <;> simp [register_all, h]
  | cons k rest ih =>
    have hstep : register_all exs tid (k :: rest)
        = register_all
            (match exs[k]? with
             | some e => exs.set k { e with traders := e.traders ++ [tid] }
             | none => exs) tid rest := by
      simp [register_all]
    rw [hstep]
    cases hk : exs[k]? with
    | none =>
      rw [ih]
      by_cases hjk : j = k
      · subst hjk
        simp [hk]
      · simp [List.count_cons, hjk]
    | some e =>
      rw [ih]
      by_cases hjk : j = k
      · subst hjk
        have hlt : j < exs.length := by
          by_contra hge
          rw [List.getElem?_eq_none (Nat.le_of_not_lt hge)] at hk
          exact Option.noConfusion hk
        rw [List.getElem?_set_eq_of_lt _ hlt, hk]
        simp [List.count_cons, List.replicate_succ, List.append_assoc]
      · rw [List.getElem?_set_ne (by omega)]
        simp [List.count_cons, hjk]

theorem register_all_length (exs : List Exchange) (tid : ℕ) (w : List ℕ) :
    (register_all exs tid w).length = exs.length := by
  induction w generalizing exs with
  | nil => simp [register_all]
  | cons k rest ih =>
    have hstep : register_all exs tid (k :: rest)
        = register_all
            (match exs[k]? with
             | some e => exs.set k { e with traders := e.traders ++ [tid] }
             | none => exs) tid rest := by
      simp [register_all]
    rw [hstep]
    cases hk : exs[k]? <;> simp [hk, ih]

theorem register_all_z_at (exs : List Exchange) (tid : ℕ) (w : List ℕ) (j : ℕ) :
    z_at (register_all exs tid w) j = z_at exs j := by
  rw [z_at, register_all_getElem]
  cases h : exs[j]? <;> simp [z_at, h]

theorem register_all_mem (exs : List Exchange) (tid : ℕ) (w : List ℕ) (j : ℕ)
    (hjw : j ∈ w) (hj : j < exs.length) :
    ∃ e, (register_all exs tid w)[j]? = some e ∧ tid ∈ e.traders := by
  rw [register_all_getElem]
  rcases List.getElem?_eq_some_iff.mpr ⟨hj, rfl⟩ with h
  rw [h]
  refine ⟨_, rfl, ?_⟩
  have hc : 0 < w.count j := List.count_pos_iff.mpr hjw
  have : tid ∈ List.replicate (w.count j) tid := List.mem_replicate.mpr ⟨by omega, rfl⟩
  simp [this]

theorem register_all_mem_mono (exs : List Exchange) (tid : ℕ) (w : List ℕ) (j : ℕ)
    (e : Exchange) (he : exs[j]? = some e) :
    ∃ e2, (register_all exs tid w)[j]? = some e2 ∧ e2.z = e.z
      ∧ ∀ x ∈ e.traders, x ∈ e2.traders := by
  rw [register_all_getElem, he]
  exact ⟨_, rfl, rfl, fun x hx => by simp [hx]⟩

theorem build_traders_fst_length (bs : ℝ) (ws : List (List ℕ)) (exs : List Exchange) (k : ℕ) :
    (build_traders bs exs k ws).1.length = exs.length := by
  induction ws generalizing exs k with
  | nil => simp [build_traders]
  | cons w rest ih => simp [build_traders, ih, register_all_length]

theorem build_traders_fst_mono (bs : ℝ) (ws : List (List ℕ)) (exs : List Exchange) (k j : ℕ)
    (e : Exchange) (he : exs[j]? = some e) :
    ∃ e2, (build_traders bs exs k ws).1[j]? = some e2 ∧ e2.z = e.z
      ∧ ∀ x ∈ e.traders, x ∈ e2.traders := by
  induction ws generalizing exs k e with
  | nil => exact ⟨e, by simpa [build_traders] using he, rfl, fun x hx => hx⟩
  | cons w rest ih =>
    rcases register_all_mem_mono exs k w j e he with ⟨e1, he1, hz1, hm1⟩
    rcases ih (register_all exs k w) (k + 1) e1 he1 with ⟨e2, he2, hz2, hm2⟩
    exact ⟨e2, by simpa [build_traders] using he2, by rw [hz2, hz1],
      fun x hx => hm2 x (hm1 x hx)⟩

theorem build_traders_z_at (bs : ℝ) (ws : List (List ℕ)) (exs : List Exchange) (k j : ℕ) :
    z_at (build_traders bs exs k ws).1 j = z_at exs j := by
  induction ws generalizing exs k with
  | nil => simp [build_traders]
  | cons w rest ih =>
    calc z_at (build_traders bs exs k (w :: rest)).1 j
        = z_at (build_traders bs (register_all exs k w) (k + 1) rest).1 j := by
          simp [build_traders]
      _ = z_at (register_all exs k w) j := ih ..
      _ = z_at exs j := register_all_z_at ..

theorem build_traders_snd_getElem (bs : ℝ) (ws : List (List ℕ)) (exs : List Exchange) (k i : ℕ) :
    (build_traders bs exs k ws).2[i]?
      = (ws[i]?).map (fun w => Trader.init (k + i) (w.map (z_at exs)) bs) := by
  induction ws generalizing exs k i with
  | nil => simp [build_traders]
  | cons w rest ih =>
    cases i with
    | zero => simp [build_traders]
    | succ i =>
      have hz : z_at (register_all exs k w) = z_at exs := funext (register_all_z_at exs k w)
      calc (build_traders bs exs k (w :: rest)).2[i + 1]?
          = (build_traders bs (register_all exs k w) (k + 1) rest).2[i]? := by
            simp [build_traders]
        _ = (rest[i]?).map (fun w2 => Trader.init (k + 1 + i) (w2.map (z_at (register_all exs k w))) bs) := ih ..
        _ = ((w :: rest)[i + 1]?).map (fun w2 => Trader.init (k + (i + 1)) (w2.map (z_at exs)) bs) := by
            rw [hz]
            have : k + 1 + i = k + (i + 1) := by omega
            rw [this]
            simp

theorem build_traders_snd_length (bs : ℝ) (ws : List (List ℕ)) (exs : List Exchange) (k : ℕ) :
    (build_traders bs exs k ws).2.length = ws.length := by
  induction ws generalizing exs k with
  | nil => simp [build_traders]
  | cons w rest ih => simp [build_traders, ih]

theorem build_traders_coverage (bs : ℝ) (ws : List (List ℕ)) (exs : List Exchange) (k : ℕ)
    (hws : ∀ w ∈ ws, w ≠ [] ∧ ∀ j ∈ w, j < exs.length) (i : ℕ) (hi : i < ws.length) :
    ∃ (j : ℕ) (e : Exchange), (build_traders bs exs k ws).1[j]? = some e ∧ (k + i) ∈ e.traders := by
  induction ws generalizing exs k i with
  | nil => simp at hi
  | cons w rest ih =>
    rcases hws w (by simp) with ⟨hwne, hwlt⟩
    cases i with
    | zero =>
      have hhd : w.head hwne ∈ w := List.head_mem hwne
      rcases register_all_mem exs k w (w.head hwne) hhd (hwlt _ hhd) with ⟨e1, he1, hm1⟩
      rcases build_traders_fst_mono bs rest (register_all exs k w) (k + 1) (w.head hwne) e1 he1
        with ⟨e2, he2, _, hm2⟩
      refine ⟨w.head hwne, e2, by simpa [build_traders] using he2, ?_⟩
      simpa using hm2 k hm1
    | succ i =>
      have hrest : ∀ w2 ∈ rest, w2 ≠ [] ∧ ∀ j ∈ w2, j < (register_all exs k w).length := by
        intro w2 hw2
        rcases hws w2 (by simp [hw2]) with ⟨h1, h2⟩
        exact ⟨h1, fun j hj => by rw [register_all_length]; exact h2 j hj⟩
      rcases ih (register_all exs k w) (k + 1) hrest i (by simpa using hi) with ⟨j, e, hje, hme⟩
      refine ⟨j, e, by simpa [build_traders] using hje, ?_⟩
      have : k + 1 + i = k + (i + 1) := by omega
      rwa [this] at hme

theorem generate_exchanges_length (num_exchanges max_risk : ℕ) :
    (generate_exchanges num_exchanges max_risk).length = num_exchanges := by
  simp [generate_exchanges]

theorem generate_exchanges_getElem (num_exchanges max_risk i : ℕ) (hi : i < num_exchanges) :
    (generate_exchanges num_exchanges max_risk)[i]?
      = some (Exchange.init (i + max_risk) num_exchanges max_risk) := by
  simp [generate_exchanges, List.getElem?_map, List.getElem?_range, hi]

theorem z_at_generate (num_exchanges max_risk i : ℕ) (hi : i < num_exchanges) :
    z_at (generate_exchanges num_exchanges max_risk) i = i + max_risk := by
  simp [z_at, generate_exchanges_getElem num_exchanges max_risk i hi, Exchange.init]

theorem range_map_z_at (exs : List Exchange) :
    (List.range exs.length).map (z_at exs) = exs.map Exchange.z := by
  apply List.ext_getElem?
  intro i
  rcases Nat.lt_or_ge i exs.length with h | h
  · simp [List.getElem?_map, List.getElem?_range, h, z_at,
      List.getElem?_eq_getElem h]
  · rw [List.getElem?_eq_none (l := (List.range exs.length).map (z_at exs)) (by simpa using h),
      List.getElem?_eq_none (l := exs.map Exchange.z) (by simpa using h)]

theorem exchanges_perm_map (l : List α) (f : α → β) (b : ℕ) :
    exchanges_perm (l.map f) b = (exchanges_perm l b).map f := by
  simp only [exchanges_perm_eq, List.map_flatten, List.map_map]
  congr 1
  apply List.map_congr_left
  intro x _
  simp [List.map_replicate]

theorem generate_traders_snd_getElem (exs : List Exchange) (b i : ℕ) :
    (generate_traders exs b).2[i]?
      = ((contiguous_sublists_size_n (exchanges_perm (List.range exs.length) b) b)[i]?).map
          (fun w => Trader.init i (w.map (z_at exs)) (1 / (b : ℝ))) := by
  rw [generate_traders, build_traders_snd_getElem]
  simp

theorem generate_traders_snd_length (exs : List Exchange) (b : ℕ) :
    (generate_traders exs b).2.length = exs.length * b - (b - 1) := by
  rw [generate_traders, build_traders_snd_length, contiguous_length, length_exchanges_perm]
  simp

theorem generate_traders_exchanges_field (exs : List Exchange) (b i : ℕ)
    (hi : i < exs.length * b - (b - 1)) :
    (generate_traders exs b).2[i]?
      = some (Trader.init i
          (((exchanges_perm (exs.map Exchange.z) b).drop i).take b) (1 / (b : ℝ))) := by
  rw [generate_traders_snd_getElem, contiguous_getElem _ _ _ (by simpa [length_exchanges_perm] using hi)]
  rw [Option.map]
  congr 2
  rw [List.map_take, List.map_drop, ← exchanges_perm_map, range_map_z_at]

theorem trader_init_exchanges (i : ℕ) (zs : List ℕ) (bs : ℝ) :
    (Trader.init i zs bs).exchanges = zs := rfl

/-- Claim C3: for every venue list of length `N ≥ 1` produced by
`generate_exchanges` and bets-per-agent `b ≥ 1`, `generate_traders` slides
contiguous windows of size `b` with stride 1 over the flattened list (of
length `N * b`), producing exactly `N * b - b + 1` traders, trader `i`
holding the `b` consecutive entries starting at offset `i`; in particular
with 2 venues and `b = 2` it produces exactly 3 traders. -/
theorem c3_sliding_window_partition (N b mr : ℕ) (hN : 1 ≤ N) (hb : 1 ≤ b) :
    (exchanges_perm ((generate_exchanges N mr).map Exchange.z) b).length = N * b
    ∧ (generate_traders (generate_exchanges N mr) b).2.length = N * b - b + 1
    ∧ (∀ i, i < N * b - b + 1 →
        ∃ t, (generate_traders (generate_exchanges N mr) b).2[i]? = some t
          ∧ t.exchanges
              = ((exchanges_perm ((generate_exchanges N mr).map Exchange.z) b).drop i).take b
          ∧ t.exchanges.length = b)
    ∧ (generate_traders (generate_exchanges 2 30) 2).2.length = 3 := by
  have hle : b ≤ N * b := Nat.le_mul_of_pos_left b hN
  have hperm : (exchanges_perm ((generate_exchanges N mr).map Exchange.z) b).length = N * b := by
    rw [length_exchanges_perm]
    simp [generate_exchanges_length]
  refine ⟨hperm, ?_, ?_, ?_⟩
  · rw [generate_traders_snd_length, generate_exchanges_length]
    omega
  · intro i hi
    have hi2 : i < (generate_exchanges N mr).length * b - (b - 1) := by
      rw [generate_exchanges_length]; omega
    refine ⟨_, generate_traders_exchanges_field _ _ _ hi2, rfl, ?_⟩
    rw [trader_init_exchanges, List.length_take, List.length_drop, hperm]
    have : i + b ≤ N * b := by
      rw [generate_exchanges_length] at hi2
      omega
    omega
  · rw [generate_traders_snd_length, generate_exchanges_length]

/-- Claim C4 counterexample: with the 2 venues of `generate_exchanges 2 30`
and 2 bets per agent, the flattened allocation list actually built by
`generate_traders` is `[30, 30, 31, 31]` (blocks), not the round-robin
ordering `[30, 31, 30, 31]` claimed by the spec. -/
theorem c4_counterexample_not_round_robin :
    exchanges_perm ((generate_exchanges 2 30).map Exchange.z) 2
        = [30, 30, 31, 31]
    ∧ spec_round_robin_flatten ((generate_exchanges 2 30).map Exchange.z) 2
        = [30, 31, 30, 31]
    ∧ exchanges_perm ((generate_exchanges 2 30).map Exchange.z) 2
        ≠ spec_round_robin_flatten ((generate_exchanges 2 30).map Exchange.z) 2 := by
  have hz : (generate_exchanges 2 30).map Exchange.z = [30, 31] := by
    simp [generate_exchanges, List.range_succ, Exchange.init]
  rw [hz]
  refine ⟨by decide, by decide, by decide⟩

/-- Claim C4 (amended): the flattened allocation list built by
`generate_traders` is in venue-block order: each venue's `b` copies are
consecutive (venue0 repeated `b` times, then venue1 repeated `b` times, …),
not interleaved round-robin; the sliding windows are taken over this block
ordering. -/
theorem c4_amended_block_flatten (l : List α) (b : ℕ) :
    exchanges_perm l b = (l.map (List.replicate b)).flatten
    ∧ (∀ (exs : List Exchange) (i : ℕ),
        (generate_traders exs b).2[i]?
          = ((contiguous_sublists_size_n (exchanges_perm (List.range exs.length) b) b)[i]?).map
              (fun w => Trader.init i (w.map (z_at exs)) (1 / (b : ℝ))))
    ∧ exchanges_perm ((generate_exchanges 2 30).map Exchange.z) 2 = [30, 30, 31, 31] := by
  refine ⟨exchanges_perm_eq l b, fun exs i => generate_traders_snd_getElem exs b i, ?_⟩
  have hz : (generate_exchanges 2 30).map Exchange.z = [30, 31] := by
    simp [generate_exchanges, List.range_succ, Exchange.init]
  rw [hz]
  decide

theorem generate_permZ_getElem (N mr b j : ℕ) (hj : j < N * b) :
    (exchanges_perm ((generate_exchanges N mr).map Exchange.z) b)[j]? = some (j / b + mr) := by
  have hb : 0 < b := by
    rcases Nat.eq_zero_or_pos b with h0 | h0
    · subst h0; simp at hj
    · exact h0
  have hlen : ((generate_exchanges N mr).map Exchange.z).length * b = N * b := by
    simp [generate_exchanges_length]
  rw [exchanges_perm_getElem _ _ _ (by rw [hlen]; exact hj)]
  have hdb : j / b < N := (Nat.div_lt_iff_lt_mul hb).mpr hj
  rw [List.getElem?_map, generate_exchanges_getElem N mr _ hdb]
  simp [Exchange.init]

/-- Claim C10: every agent produced by `generate_traders` holds allocations
spanning at most 2 distinct venues, because the flattened list consists of
consecutive blocks of `b` identical venues and each window has size `b`; the
first and the last agent hold exactly one distinct venue, repeated `b`
times. -/
theorem c10_agents_span_at_most_two (N b mr : ℕ) (hN : 1 ≤ N) (hb : 1 ≤ b) :
    (∀ t ∈ (generate_traders (generate_exchanges N mr) b).2,
        ∃ x y : ℕ, ∀ v ∈ t.exchanges, v = x ∨ v = y)
    ∧ (∃ t, (generate_traders (generate_exchanges N mr) b).2[0]? = some t
        ∧ t.exchanges = List.replicate b mr)
    ∧ (∃ t, (generate_traders (generate_exchanges N mr) b).2[N * b - b]? = some t
        ∧ t.exchanges = List.replicate b (N - 1 + mr)) := by
  have hble : b ≤ N * b := Nat.le_mul_of_pos_left b hN
  have hbpos : 0 < b := hb
  have hwin : ∀ i, i < (generate_exchanges N mr).length * b - (b - 1) → i + b ≤ N * b := by
    intro i hi
    rw [generate_exchanges_length] at hi
    omega
  have helem : ∀ i, i + b ≤ N * b → ∀ v ∈
      ((exchanges_perm ((generate_exchanges N mr).map Exchange.z) b).drop i).take b,
      v = i / b + mr ∨ v = i / b + 1 + mr := by
    intro i hi v hv
    rcases List.mem_iff_getElem?.mp hv with ⟨k, hk⟩
    have hkb : k < b := by
      have := List.getElem?_eq_some_iff.mp hk
      rcases this with ⟨hlt, _⟩
      have : k < (((exchanges_perm ((generate_exchanges N mr).map Exchange.z) b).drop i).take b).length := hlt
      simp at this
      omega
    rw [List.getElem?_take, if_pos hkb, List.getElem?_drop] at hk
    rw [generate_permZ_getElem N mr b (i + k) (by omega)] at hk
    have hv2 : v = (i + k) / b + mr := by
      exact (Option.some_inj.mp hk).symm
    have h1 : i / b ≤ (i + k) / b := Nat.div_le_div_right (by omega)
    have h2 : (i + k) / b ≤ i / b + 1 := by
      have : (i + k) / b ≤ (i + b) / b := Nat.div_le_div_right (by omega)
      rwa [Nat.add_div_right i hbpos] at this
    rcases Nat.eq_or_lt_of_le h1 with heq | hlt
    · left; omega
    · right
      have : (i + k) / b = i / b + 1 := by omega
      omega
  refine ⟨?_, ?_, ?_⟩
  · intro t ht
    rcases List.mem_iff_getElem?.mp ht with ⟨i, hi⟩
    have hilen : i < (generate_traders (generate_exchanges N mr) b).2.length :=
      (List.getElem?_eq_some_iff.mp hi).1
    rw [generate_traders_snd_length] at hilen
    rw [generate_traders_exchanges_field _ _ _ hilen] at hi
    have ht2 : t = Trader.init i
        (((exchanges_perm ((generate_exchanges N mr).map Exchange.z) b).drop i).take b)
        (1 / (b : ℝ)) := (Option.some_inj.mp hi).symm
    refine ⟨i / b + mr, i / b + 1 + mr, ?_⟩
    rw [ht2, trader_init_exchanges]
    exact helem i (hwin i hilen) 
  · have h0 : (0 : ℕ) < (generate_exchanges N mr).length * b - (b - 1) := by
      rw [generate_exchanges_length]
      omega
    refine ⟨_, generate_traders_exchanges_field _ _ _ h0, ?_⟩
    rw [trader_init_exchanges, List.drop_zero]
    apply List.ext_getElem?
    intro k
    rcases Nat.lt_or_ge k b with hk | hk
    · rw [List.getElem?_take, if_pos hk, generate_permZ_getElem N mr b k (by omega),
        List.getElem?_replicate]
      rw [Nat.div_eq_of_lt hk]
      simp [hk]
    · have hlen1 : (((exchanges_perm ((generate_exchanges N mr).map Exchange.z) b)).take b).length ≤ k := by
        rw [List.length_take]
        exact le_trans (min_le_left _ _) hk
      rw [List.getElem?_eq_none hlen1, List.getElem?_eq_none (by simpa using hk)]
  · have hlast : N * b - b < (generate_exchanges N mr).length * b - (b - 1) := by
      rw [generate_exchanges_length]
      omega
    refine ⟨_, generate_traders_exchanges_field _ _ _ hlast, ?_⟩
    rw [trader_init_exchanges]
    apply List.ext_getElem?
    intro k
    rcases Nat.lt_or_ge k b with hk | hk
    · rw [List.getElem?_take, if_pos hk, List.getElem?_drop,
        generate_permZ_getElem N mr b (N * b - b + k) (by omega),
        List.getElem?_replicate]
      have hq : (N * b - b + k) / b = N - 1 := by
        have h1 : N * b - b = (N - 1) * b := (Nat.sub_one_mul N b).symm
        rw [h1, Nat.mul_comm, Nat.mul_add_div hbpos]
        rw [Nat.div_eq_of_lt hk]
        omega
      rw [hq]
      simp [hk]
    · have hlen1 : ((((exchanges_perm ((generate_exchanges N mr).map Exchange.z) b)).drop (N * b - b)).take b).length ≤ k := by
        rw [List.length_take]
        exact le_trans (min_le_left _ _) hk
      rw [List.getElem?_eq_none hlen1, List.getElem?_eq_none (by simpa using hk)]

theorem c3_sliding_window_partition_witness :
    (1 : ℕ) ≤ 2 ∧ (generate_traders (generate_exchanges 2 30) 2).2.length = 3 :=
  ⟨by norm_num, (c3_sliding_window_partition 2 2 30 (by norm_num) (by norm_num)).2.2.2⟩

theorem c10_agents_span_at_most_two_witness :
    (1 : ℕ) ≤ 2 ∧
      (∃ t, (generate_traders (generate_exchanges 2 30) 2).2[0]? = some t
        ∧ t.exchanges = List.replicate 2 30) :=
  ⟨by norm_num, (c10_agents_span_at_most_two 2 2 30 (by norm_num) (by norm_num)).2.1⟩

theorem exchange_rank_generated (N mr i : ℕ) :
    exchange_rank (i + mr) N mr = (i : ℝ) / ((N : ℝ) - 1) := by
  rw [exchange_rank]
  push_cast
  ring_nf

theorem premium_generated (N mr i : ℕ) :
    (Exchange.init (i + mr) N mr).premium
      = (1 - (i : ℝ) / ((N : ℝ) - 1)) ^ PREMIUM_DECAY * MAX_PREMIUM := by
  rw [Exchange.init, exchange_rank_generated]

/-- Claim C7: among the venues produced by `generate_exchanges` (fixed decay
exponent `PREMIUM_DECAY = 2.6` and venue count `N ≥ 2`), premium is strictly
decreasing in the risk parameter: the venue with the higher `z` has the
strictly lower premium, and the riskiest venue (index 0, lowest `z`) has the
strictly highest premium. -/
theorem c7_premium_strictly_decreasing (N mr : ℕ) (hN : 2 ≤ N) :
    (∀ (i j : ℕ) (ei ej : Exchange), (generate_exchanges N mr)[i]? = some ei →
        (generate_exchanges N mr)[j]? = some ej →
        ei.z < ej.z → ej.premium < ei.premium)
    ∧ (∀ (j : ℕ) (e0 ej : Exchange), (generate_exchanges N mr)[0]? = some e0 →
        (generate_exchanges N mr)[j]? = some ej →
        0 < j → ej.premium < e0.premium) := by
  have hc : (0 : ℝ) < (N : ℝ) - 1 := by
    have : (2 : ℝ) ≤ (N : ℝ) := by exact_mod_cast hN
    linarith
  have main : ∀ (i j : ℕ) (ei ej : Exchange), (generate_exchanges N mr)[i]? = some ei →
      (generate_exchanges N mr)[j]? = some ej →
      ei.z < ej.z → ej.premium < ei.premium := by
    intro i j ei ej hei hej hz
    have hiN : i < N := by
      have := (List.getElem?_eq_some_iff.mp hei).1
      rwa [generate_exchanges_length] at this
    have hjN : j < N := by
      have := (List.getElem?_eq_some_iff.mp hej).1
      rwa [generate_exchanges_length] at this
    rw [generate_exchanges_getElem N mr i hiN] at hei
    rw [generate_exchanges_getElem N mr j hjN] at hej
    have hei2 : ei = Exchange.init (i + mr) N mr := (Option.some_inj.mp hei).symm
    have hej2 : ej = Exchange.init (j + mr) N mr := (Option.some_inj.mp hej).symm
    have hij : i < j := by
      rw [hei2, hej2] at hz
      simp [Exchange.init] at hz
      omega
    rw [hei2, hej2, premium_generated, premium_generated]
    have hjle : (j : ℝ) ≤ (N : ℝ) - 1 := by
      have : (j : ℝ) + 1 ≤ (N : ℝ) := by exact_mod_cast hjN
      linarith
    have haj : (0 : ℝ) ≤ 1 - (j : ℝ) / ((N : ℝ) - 1) := by
      have : (j : ℝ) / ((N : ℝ) - 1) ≤ 1 := (div_le_one hc).mpr hjle
      linarith
    have hlt : 1 - (j : ℝ) / ((N : ℝ) - 1) < 1 - (i : ℝ) / ((N : ℝ) - 1) := by
      have : (i : ℝ) / ((N : ℝ) - 1) < (j : ℝ) / ((N : ℝ) - 1) :=
        (div_lt_div_iff_of_pos_right hc).mpr (by exact_mod_cast hij)
      linarith
    have hrpow : (1 - (j : ℝ) / ((N : ℝ) - 1)) ^ PREMIUM_DECAY
        < (1 - (i : ℝ) / ((N : ℝ) - 1)) ^ PREMIUM_DECAY := by
      apply Real.rpow_lt_rpow haj hlt
      rw [PREMIUM_DECAY]
      norm_num
    have hmp : (0 : ℝ) < MAX_PREMIUM := by
      rw [MAX_PREMIUM]
      norm_num
    exact mul_lt_mul_of_pos_right hrpow hmp
  refine ⟨main, ?_⟩
  intro j e0 ej he0 hej hj
  apply main 0 j e0 ej he0 hej
  have hjN : j < N := by
    have := (List.getElem?_eq_some_iff.mp hej).1
    rwa [generate_exchanges_length] at this
  rw [generate_exchanges_getElem N mr 0 (by omega)] at he0
  rw [generate_exchanges_getElem N mr j hjN] at hej
  have he02 : e0 = Exchange.init (0 + mr) N mr := (Option.some_inj.mp he0).symm
  have hej2 : ej = Exchange.init (j + mr) N mr := (Option.some_inj.mp hej).symm
  rw [he02, hej2]
  simp [Exchange.init]
  omega

theorem c7_premium_strictly_decreasing_witness :
    (Exchange.init (1 + 30) 8 30).premium < (Exchange.init (0 + 30) 8 30).premium :=
  (c7_premium_strictly_decreasing 8 30 (by norm_num)).1 0 1
    (Exchange.init (0 + 30) 8 30) (Exchange.init (1 + 30) 8 30)
    (generate_exchanges_getElem 8 30 0 (by norm_num))
    (generate_exchanges_getElem 8 30 1 (by norm_num))
    (by simp [Exchange.init])

/-- Claim C8 counterexample: the least risky venue produced by
`generate_exchanges 8 30` has risk parameter 37 and rank
`(37 - 30) / (8 - 1) = 1`, which does not lie in the claimed interval
`[-1, 0]`. -/
theorem c8_counterexample_rank_is_one :
    z_at (generate_exchanges 8 30) 7 = 37
    ∧ exchange_rank (z_at (generate_exchanges 8 30) 7) 8 30 = 1
    ∧ ¬ exchange_rank (z_at (generate_exchanges 8 30) 7) 8 30 ≤ 0 := by
  have h1 : z_at (generate_exchanges 8 30) 7 = 37 := z_at_generate 8 30 7 (by norm_num)
  refine ⟨h1, ?_, ?_⟩ <;> rw [h1] <;> norm_num [exchange_rank]

/-- Claim C8 (amended): for every venue of `generate_exchanges N mr`
(`N ≥ 2`), the rank `(z - mr) / (N - 1)` computed at construction lies in
`[0, 1]`, the riskiest venue (index 0, `z = mr`) having rank 0 and the least
risky (index `N - 1`) having rank 1. -/
theorem c8_amended_rank_in_unit_interval (N mr i : ℕ) (hN : 2 ≤ N) (e : Exchange)
    (he : (generate_exchanges N mr)[i]? = some e) :
    (0 ≤ exchange_rank e.z N mr ∧ exchange_rank e.z N mr ≤ 1)
    ∧ (i = 0 → exchange_rank e.z N mr = 0)
    ∧ (i = N - 1 → exchange_rank e.z N mr = 1) := by
  have hiN : i < N := by
    have := (List.getElem?_eq_some_iff.mp he).1
    rwa [generate_exchanges_length] at this
  rw [generate_exchanges_getElem N mr i hiN] at he
  have he2 : e = Exchange.init (i + mr) N mr := (Option.some_inj.mp he).symm
  have hz : e.z = i + mr := by rw [he2]; rfl
  rw [hz, exchange_rank_generated]
  have hc : (0 : ℝ) < (N : ℝ) - 1 := by
    have : (2 : ℝ) ≤ (N : ℝ) := by exact_mod_cast hN
    linarith
  refine ⟨⟨?_, ?_⟩, ?_, ?_⟩
  · positivity
  · apply (div_le_one hc).mpr
    have : (i : ℝ) + 1 ≤ (N : ℝ) := by exact_mod_cast hiN
    linarith
  · intro h0
    subst h0
    simp
  · intro hlast
    subst hlast
    have hcast : ((N - 1 : ℕ) : ℝ) = (N : ℝ) - 1 := by
      have : (1 : ℕ) ≤ N := by omega
      push_cast [this]
      ring
    rw [hcast]
    field_simp

theorem c8_amended_rank_in_unit_interval_witness :
    (0 ≤ exchange_rank (Exchange.init (7 + 30) 8 30).z 8 30
      ∧ exchange_rank (Exchange.init (7 + 30) 8 30).z 8 30 ≤ 1)
    ∧ (7 = 0 → exchange_rank (Exchange.init (7 + 30) 8 30).z 8 30 = 0)
    ∧ (7 = 8 - 1 → exchange_rank (Exchange.init (7 + 30) 8 30).z 8 30 = 1) :=
  c8_amended_rank_in_unit_interval 8 30 7 (by norm_num)
    (Exchange.init (7 + 30) 8 30) (generate_exchanges_getElem 8 30 7 (by norm_num))

theorem foldl_preserves_sim {β : Type} (P : SimState → Prop) (f : SimState → β → SimState)
    (hf : ∀ s b, P s → P (f s b)) : ∀ (l : List β) (s : SimState), P s → P (l.foldl f s) := by
  intro l
  induction l with
  | nil => intro s hs; simpa using hs
  | cons b rest ih =>
    intro s hs
    rw [List.foldl_cons]
    exact ih (f s b) (hf s b hs)

theorem tick_exchange_dead_mono (s : SimState) (jj n j : ℕ) (e : Exchange)
    (he : s.exchanges[j]? = some e) (hd : e.is_dead = true) :
    ∃ e2, (tick_exchange s jj n).exchanges[j]? = some e2 ∧ e2.is_dead = true := by
  rw [tick_exchange]
  cases hjj : s.exchanges[jj]? with
  | none => exact ⟨e, he, hd⟩
  | some e3 =>
    by_cases hd3 : e3.is_dead
    · simp only [hd3, if_true]
      exact ⟨e, he, hd⟩
    · simp only [hd3, if_false, Bool.false_eq_true]
      by_cases hdr : (randint s.rng (e3.z ^ RUIN_DECAY)).1 = 0
      · simp only [hdr, if_true]
        by_cases hjeq : j = jj
        · subst hjeq
          have hlt : j < s.exchanges.length := (List.getElem?_eq_some_iff.mp he).1
          exact ⟨_, List.getElem?_set_eq_of_lt _ hlt, rfl⟩
        · exact ⟨e, by rw [List.getElem?_set_ne (by omega)]; exact he, hd⟩
      · simp only [hdr, if_false]
        exact ⟨e, he, hd⟩

theorem step_exchanges_dead_mono (s : SimState) (n j : ℕ) (e : Exchange)
    (he : s.exchanges[j]? = some e) (hd : e.is_dead = true) :
    ∃ e2, (step_exchanges s n).exchanges[j]? = some e2 ∧ e2.is_dead = true := by
  rw [step_exchanges]
  exact foldl_preserves_sim
    (fun st => ∃ e2, st.exchanges[j]? = some e2 ∧ e2.is_dead = true)
    (fun st jj => tick_exchange st jj n)
    (fun st jj ⟨e2, he2, hd2⟩ => tick_exchange_dead_mono st jj n j e2 he2 hd2)
    (List.range s.exchanges.length) s ⟨e, he, hd⟩

/-- Claim C1: once an exchange's failure flag is set it never reverts (it
survives every subsequent tick of the whole simulation), and ticking a dead
exchange changes nothing but the traders, who are all notified, in
registration order, of a payoff of exactly `0`; in particular no random draw
is consumed (the `rng` field of the state is untouched). -/
theorem c1_dead_exchange_absorbing :
    (∀ (s : SimState) (j n : ℕ) (e : Exchange), s.exchanges[j]? = some e →
        e.is_dead = true →
        tick_exchange s j n = { s with traders := notify_traders s.traders e.traders e.z 0 n })
    ∧ (∀ (s : SimState) (steps j : ℕ) (e : Exchange), s.exchanges[j]? = some e →
        e.is_dead = true →
        ∃ e2, (run_simulation s steps).exchanges[j]? = some e2 ∧ e2.is_dead = true) := by
  constructor
  · intro s j n e he hd
    rw [tick_exchange, he]
    simp only [hd, if_true]
  · intro s steps j e he hd
    rw [run_simulation]
    exact foldl_preserves_sim
      (fun st => ∃ e2, st.exchanges[j]? = some e2 ∧ e2.is_dead = true)
      (fun st i => step_exchanges st i)
      (fun st i ⟨e2, he2, hd2⟩ => step_exchanges_dead_mono st i j e2 he2 hd2)
      (List.range steps) s ⟨e, he, hd⟩

/-- Claim C9: an exchange with `z = 1` that is not yet dead deterministically
takes the failure branch on any tick, for every state of the random source:
the draw space `[0, 1 ** RUIN_DECAY) = [0, 1)` only contains `0`, so the
payoff pushed to every registered trader is `NEGATIVE_INFINITY`, `is_dead`
becomes true, and exactly one integer draw is consumed. -/
theorem c9_risk_one_always_fails (s : SimState) (j n : ℕ) (e : Exchange)
    (he : s.exchanges[j]? = some e) (hz : e.z = 1) (hd : e.is_dead = false) :
    tick_exchange s j n
      = { exchanges := s.exchanges.set j { e with is_dead := true }
          traders := notify_traders s.traders e.traders e.z NEGATIVE_INFINITY n
          rng := { s.rng with int_pos := s.rng.int_pos + 1 } } := by
  rw [tick_exchange, he]
  simp only [hd, Bool.false_eq_true, if_false]
  have hdraw : (randint s.rng (e.z ^ RUIN_DECAY)).1 = 0 := by
    rw [randint, hz]
    simp [RUIN_DECAY, Nat.mod_one]
  rw [hdraw]
  simp [randint]

theorem c1_dead_exchange_absorbing_witness :
    tick_exchange
        ⟨[⟨5, [0], true, 0⟩], [Trader.init 0 [5] 1], ⟨fun _ => 0, fun _ => 0, 0, 0⟩⟩ 0 3
      = { (⟨[⟨5, [0], true, 0⟩], [Trader.init 0 [5] 1], ⟨fun _ => 0, fun _ => 0, 0, 0⟩⟩ : SimState)
          with traders := notify_traders [Trader.init 0 [5] 1] [0] 5 0 3 }
    ∧ ∃ e2, (run_simulation
        ⟨[⟨5, [0], true, 0⟩], [Trader.init 0 [5] 1], ⟨fun _ => 0, fun _ => 0, 0, 0⟩⟩ 2).exchanges[0]?
          = some e2 ∧ e2.is_dead = true :=
  ⟨c1_dead_exchange_absorbing.1 _ 0 3 ⟨5, [0], true, 0⟩ rfl rfl,
   c1_dead_exchange_absorbing.2 _ 2 0 ⟨5, [0], true, 0⟩ rfl rfl⟩

theorem c9_risk_one_always_fails_witness :
    tick_exchange
        ⟨[⟨1, [0], false, 0⟩], [Trader.init 0 [1] 1], ⟨fun _ => 2, fun _ => 7, 0, 0⟩⟩ 0 0
      = ⟨[⟨1, [0], true, 0⟩],
         notify_traders [Trader.init 0 [1] 1] [0] 1 NEGATIVE_INFINITY 0,
         ⟨fun _ => 2, fun _ => 7, 1, 0⟩⟩ :=
  c9_risk_one_always_fails _ 0 0 ⟨1, [0], false, 0⟩ rfl rfl rfl

theorem record_balances_exchanges (t : Trader) (m : ℕ) :
    (t.record_balances m).exchanges = t.exchanges := rfl

theorem record_balances_tick (t : Trader) (m : ℕ) :
    (t.record_balances m).tick = t.tick := rfl

theorem record_balances_series_mem (t : Trader) (m z : ℕ) (hz : z ∈ t.exchanges) :
    (t.record_balances m).account_series z
      = t.account_series z
          ++ [if t.account_balance z < 0 then (0 : ℝ) else t.account_balance z] := by
  simp [Trader.record_balances, hz]

theorem record_balances_series_not_mem (t : Trader) (m z : ℕ) (hz : z ∉ t.exchanges) :
    (t.record_balances m).account_series z = t.account_series z := by
  simp [Trader.record_balances, hz]

theorem record_balances_balance_mem (t : Trader) (m z : ℕ) (hz : z ∈ t.exchanges) :
    (t.record_balances m).account_balance z
      = if t.account_balance z < 0 then (0 : ℝ) else t.account_balance z := by
  simp [Trader.record_balances, hz]

theorem receive_payoff_exchanges (t : Trader) (z : ℕ) (p : ℝ) (n : ℕ) :
    (t.receive_payoff z p n).exchanges = t.exchanges := by
  rw [Trader.receive_payoff]
  by_cases h : n > t.tick <;> simp [h, record_balances_exchanges]

theorem receive_payoff_tick (t : Trader) (z : ℕ) (p : ℝ) (n : ℕ) :
    (t.receive_payoff z p n).tick = if n > t.tick then n else t.tick := by
  rw [Trader.receive_payoff]
  by_cases h : n > t.tick <;> simp [h]

theorem receive_payoff_series (t : Trader) (z : ℕ) (p : ℝ) (n : ℕ) :
    (t.receive_payoff z p n).account_series
      = if n > t.tick then (t.record_balances t.tick).account_series
        else t.account_series := by
  rw [Trader.receive_payoff]
  by_cases h : n > t.tick <;> simp [h]

theorem receive_payoff_balance (t : Trader) (z : ℕ) (p : ℝ) (n : ℕ) (z2 : ℕ) :
    (t.receive_payoff z p n).account_balance z2
      = (if n > t.tick then (t.record_balances t.tick).account_balance z2
         else t.account_balance z2) + (if z2 = z then p else 0) := by
  rw [Trader.receive_payoff]
  by_cases h : n > t.tick <;> by_cases h2 : z2 = z <;> simp [h, h2]

/-- Claim C6 counterexample: the catastrophic-loss sentinel is the finite
value `-10000`, not negative infinity: an agent holding `20000.5` at a venue
when the failure payoff arrives has `20001 / 2 = 10000.5`, not `0`, as the
next recorded history entry for that venue. -/
theorem c6_counterexample_sentinel_is_finite :
    30 ∈ (Trader.init 0 [30] (1 / 2)).exchanges
    ∧ ((((Trader.init 0 [30] (1 / 2)).receive_payoff 30 20000 0).receive_payoff
          30 NEGATIVE_INFINITY 0).account_balance 30 = 20001 / 2)
    ∧ (((((Trader.init 0 [30] (1 / 2)).receive_payoff 30 20000 0).receive_payoff
          30 NEGATIVE_INFINITY 0).record_balances 0).account_series 30
        = [1 / 2, 20001 / 2])
    ∧ ((20001 : ℝ) / 2 ≠ 0) := by
  refine ⟨by simp [Trader.init], ?_, ?_, by norm_num⟩
  · simp [Trader.receive_payoff, Trader.init, NEGATIVE_INFINITY]
    norm_num
  · simp [Trader.receive_payoff, Trader.record_balances, Trader.init, NEGATIVE_INFINITY]
    norm_num

/-- Claim C6 (amended): when a venue fails, the next recorded history entry
for that venue is exactly `0` for every agent whose balance at that venue was
at most `10000 = -NEGATIVE_INFINITY` when the failure payoff was applied: the
sentinel is the finite value `-10000`, so the clamp-to-zero is guaranteed
only up to that magnitude, not for arbitrarily large balances. -/
theorem c6_amended_clamp_fires_up_to_sentinel (t : Trader) (z n m : ℕ)
    (hz : z ∈ t.exchanges) (hb : t.account_balance z ≤ 10000) :
    ((t.receive_payoff z NEGATIVE_INFINITY n).record_balances m).account_series z
      = (t.receive_payoff z NEGATIVE_INFINITY n).account_series z ++ [(0 : ℝ)] := by
  have hz1 : z ∈ (t.receive_payoff z NEGATIVE_INFINITY n).exchanges := by
    rwa [receive_payoff_exchanges]
  have hbal : (t.receive_payoff z NEGATIVE_INFINITY n).account_balance z ≤ 0 := by
    rw [receive_payoff_balance]
    by_cases h : n > t.tick
    · rw [if_pos h, if_pos rfl, record_balances_balance_mem t t.tick z hz]
      by_cases hneg : t.account_balance z < 0
      · rw [if_pos hneg, NEGATIVE_INFINITY]
        norm_num
      · rw [if_neg hneg, NEGATIVE_INFINITY]
        linarith
    · rw [if_neg h, if_pos rfl, NEGATIVE_INFINITY]
      linarith
  rw [record_balances_series_mem _ m z hz1]
  congr 1
  by_cases hneg : (t.receive_payoff z NEGATIVE_INFINITY n).account_balance z < 0
  · rw [if_pos hneg]
  · rw [if_neg hneg]
    have : (t.receive_payoff z NEGATIVE_INFINITY n).account_balance z = 0 := le_antisymm hbal (not_lt.mp hneg)
    rw [this]

theorem c6_amended_clamp_fires_up_to_sentinel_witness :
    (((Trader.init 0 [30] (1 / 2)).receive_payoff 30 NEGATIVE_INFINITY 0).record_balances 0).account_series 30
      = ((Trader.init 0 [30] (1 / 2)).receive_payoff 30 NEGATIVE_INFINITY 0).account_series 30 ++ [(0 : ℝ)] :=
  c6_amended_clamp_fires_up_to_sentinel (Trader.init 0 [30] (1 / 2)) 30 0 0
    (by simp [Trader.init]) (by norm_num [Trader.init])

theorem update_trader_forall (P : Trader → Prop) (ts : List Trader) (i : ℕ) (f : Trader → Trader)
    (h : ∀ t ∈ ts, P t) (hf : ∀ t ∈ ts, P (f t)) : ∀ t ∈ update_trader ts i f, P t := by
  rw [update_trader]
  cases hts : ts[i]? with
  | none => exact h
  | some t0 =>
    intro x hx
    rcases List.mem_or_eq_of_mem_set hx with hmem | rfl
    · exact h x hmem
    · exact hf t0 (List.getElem?_mem hts)

theorem notify_traders_forall (P : Trader → Prop) (z : ℕ) (p : ℝ) (n : ℕ)
    (hrec : ∀ t, P t → P (t.receive_payoff z p n)) :
    ∀ (ids : List ℕ) (ts : List Trader), (∀ t ∈ ts, P t) →
      ∀ t ∈ notify_traders ts ids z p n, P t := by
  intro ids
  induction ids with
  | nil => intro ts h; simpa [notify_traders] using h
  | cons i rest ih =>
    intro ts h
    rw [notify_traders, List.foldl_cons]
    exact ih (update_trader ts i (fun t => t.receive_payoff z p n))
      (update_trader_forall P ts i _ h (fun t ht => hrec t (h t ht)))

theorem tick_exchange_traders_forall (P : Trader → Prop) (s : SimState) (j n : ℕ)
    (hrec : ∀ (t : Trader) (z : ℕ) (p : ℝ), P t → P (t.receive_payoff z p n))
    (h : ∀ t ∈ s.traders, P t) :
    ∀ t ∈ (tick_exchange s j n).traders, P t := by
  rw [tick_exchange]
  cases hj : s.exchanges[j]? with
  | none => exact h
  | some e =>
    by_cases hd : e.is_dead
    · simp only [hd, if_true]
      exact notify_traders_forall P e.z 0 n (fun t => hrec t e.z 0) e.traders s.traders h
    · simp only [hd, Bool.false_eq_true, if_false]
      by_cases hdr : (randint s.rng (e.z ^ RUIN_DECAY)).1 = 0
      · simp only [hdr, if_true]
        exact notify_traders_forall P e.z NEGATIVE_INFINITY n
          (fun t => hrec t e.z NEGATIVE_INFINITY) e.traders s.traders h
      · simp only [hdr, if_false]
        exact notify_traders_forall P e.z _ n (fun t => hrec t e.z _) e.traders s.traders h

theorem run_simulation_traders_forall (P : Trader → Prop)
    (hrec : ∀ (t : Trader) (z : ℕ) (p : ℝ) (n : ℕ), P t → P (t.receive_payoff z p n))
    (s : SimState) (steps : ℕ) (h : ∀ t ∈ s.traders, P t) :
    ∀ t ∈ (run_simulation s steps).traders, P t := by
  rw [run_simulation]
  refine foldl_preserves_sim (fun st => ∀ t ∈ st.traders, P t) _ ?_ (List.range steps) s h
  intro st i hst
  rw [step_exchanges]
  exact foldl_preserves_sim (fun st2 => ∀ t ∈ st2.traders, P t) _
    (fun st2 j h2 => tick_exchange_traders_forall P st2 j i (fun t z p => hrec t z p i) h2)
    (List.range st.exchanges.length) st hst

theorem record_balances_nonneg (t : Trader) (m : ℕ)
    (h : ∀ (z : ℕ), ∀ x ∈ t.account_series z, 0 ≤ x) :
    ∀ (z : ℕ), ∀ x ∈ (t.record_balances m).account_series z, 0 ≤ x := by
  intro z x hx
  by_cases hz : z ∈ t.exchanges
  · rw [record_balances_series_mem t m z hz] at hx
    rcases List.mem_append.mp hx with hold | hnew
    · exact h z x hold
    · rcases List.mem_singleton.mp hnew with rfl
      by_cases hneg : t.account_balance z < 0
      · rw [if_pos hneg]
      · rw [if_neg hneg]
        exact not_lt.mp hneg
  · rw [record_balances_series_not_mem t m z hz] at hx
    exact h z x hx

theorem receive_payoff_nonneg (t : Trader) (z : ℕ) (p : ℝ) (n : ℕ)
    (h : ∀ (z2 : ℕ), ∀ x ∈ t.account_series z2, 0 ≤ x) :
    ∀ (z2 : ℕ), ∀ x ∈ (t.receive_payoff z p n).account_series z2, 0 ≤ x := by
  intro z2 x hx
  rw [receive_payoff_series] at hx
  by_cases hn : n > t.tick
  · rw [if_pos hn] at hx
    exact record_balances_nonneg t t.tick h z2 x hx
  · rw [if_neg hn] at hx
    exact h z2 x hx

/-- Claim C2: in every state reachable by running the simulation from the
generated setup, every entry of every trader's recorded balance series is
nonnegative: the seeded initial entry is `bet_size * count ≥ 0`, and every
recorded entry is clamped to zero before being appended whenever the balance
is negative. -/
theorem c2_series_entries_nonneg (N b mr : ℕ) (rng : Rng) (k : ℕ) :
    ∀ t ∈ (run_simulation (init_state N b mr rng) k).traders,
      ∀ (z : ℕ), ∀ x ∈ t.account_series z, 0 ≤ x := by
  apply run_simulation_traders_forall
    (fun t => ∀ (z : ℕ), ∀ x ∈ t.account_series z, 0 ≤ x)
    (fun t z p n h => receive_payoff_nonneg t z p n h)
  intro t ht z x hx
  rcases List.mem_iff_getElem?.mp ht with ⟨i, hi⟩
  rw [init_state] at hi
  simp only at hi
  rw [generate_traders_snd_getElem] at hi
  cases hw : (contiguous_sublists_size_n
      (exchanges_perm (List.range (generate_exchanges N mr).length) b) b)[i]? with
  | none => rw [hw] at hi; exact Option.noConfusion hi
  | some w =>
    rw [hw] at hi
    have ht2 : t = Trader.init i (w.map (z_at (generate_exchanges N mr))) (1 / (b : ℝ)) :=
      (Option.some_inj.mp hi).symm
    rw [ht2, Trader.init] at hx
    simp only at hx
    by_cases hz : z ∈ w.map (z_at (generate_exchanges N mr))
    · rw [if_pos hz] at hx
      rcases List.mem_singleton.mp hx with rfl
      positivity
    · rw [if_neg hz] at hx
      simp at hx

theorem c2_series_entries_nonneg_witness : (0 : ℝ) ≤ 1 := by
  have hperm : (exchanges_perm ((generate_exchanges 2 30).map Exchange.z) 1) = [30, 31] := by
    have hz : (generate_exchanges 2 30).map Exchange.z = [30, 31] := by
      simp [generate_exchanges, List.range_succ, Exchange.init]
    rw [hz]
    decide
  have hlen : (0 : ℕ) < (generate_exchanges 2 30).length * 1 - (1 - 1) := by
    simp [generate_exchanges_length]
  have ht := generate_traders_exchanges_field (generate_exchanges 2 30) 1 0 hlen
  rw [hperm] at ht
  have hmem : Trader.init 0 (([30, 31].drop 0).take 1) (1 / ((1 : ℕ) : ℝ))
      ∈ (run_simulation (init_state 2 1 30 ⟨fun _ => 0, fun _ => 0, 0, 0⟩) 0).traders := by
    show Trader.init 0 (([30, 31].drop 0).take 1) (1 / ((1 : ℕ) : ℝ))
      ∈ (generate_traders (generate_exchanges 2 30) 1).2
    exact List.getElem?_mem ht
  have hx : (1 : ℝ) ∈ (Trader.init 0 (([30, 31].drop 0).take 1) (1 / ((1 : ℕ) : ℝ))).account_series 30 := by
    rw [Trader.init]
    norm_num
  exact c2_series_entries_nonneg 2 1 30 ⟨fun _ => 0, fun _ => 0, 0, 0⟩ 0 _ hmem 30 1 hx

theorem update_trader_length (ts : List Trader) (i : ℕ) (f : Trader → Trader) :
    (update_trader ts i f).length = ts.length := by
  rw [update_trader]
  cases ts[i]? <;> simp

theorem update_trader_getElem (ts : List Trader) (j : ℕ) (f : Trader → Trader) (i : ℕ) :
    (update_trader ts j f)[i]? = if i = j then (ts[j]?).map f else ts[i]? := by
  rw [update_trader]
  cases hj : ts[j]? with
  | none =>
    by_cases hij : i = j
    · subst hij; simp [hj]
    · simp [hij]
  | some t0 =>
    by_cases hij : i = j
    · subst hij
      have hlt : i < ts.length := (List.getElem?_eq_some_iff.mp hj).1
      simp [List.getElem?_set_eq_of_lt _ hlt, hj]
    · rw [List.getElem?_set_ne (by omega : j ≠ i)]
      simp [hij]

theorem notify_traders_length (ts : List Trader) (ids : List ℕ) (z : ℕ) (p : ℝ) (n : ℕ) :
    (notify_traders ts ids z p n).length = ts.length := by
  induction ids generalizing ts with
  | nil => simp [notify_traders]
  | cons i rest ih =>
    rw [notify_traders, List.foldl_cons]
    rw [show (List.foldl (fun acc i => update_trader acc i fun t => t.receive_payoff z p n) (update_trader ts i fun t => t.receive_payoff z p n) rest) = notify_traders (update_trader ts i fun t => t.receive_payoff z p n) rest z p n from rfl]
    rw [ih, update_trader_length]

theorem tick_exchange_traders_length (s : SimState) (j n : ℕ) :
    (tick_exchange s j n).traders.length = s.traders.length := by
  rw [tick_exchange]
  cases hj : s.exchanges[j]? with
  | none => rfl
  | some e =>
    by_cases hd : e.is_dead
    · simp only [hd, if_true]
      exact notify_traders_length ..
    · simp only [hd, Bool.false_eq_true, if_false]
      by_cases hdr : (randint s.rng (e.z ^ RUIN_DECAY)).1 = 0
      · simp only [hdr, if_true]
        exact notify_traders_length ..
      · simp only [hdr, if_false]
        exact notify_traders_length ..

theorem tick_exchange_exchange_frame (s : SimState) (j n j2 : ℕ) (e : Exchange)
    (he : s.exchanges[j2]? = some e) :
    ∃ e2, (tick_exchange s j n).exchanges[j2]? = some e2
      ∧ e2.z = e.z ∧ e2.traders = e.traders := by
  rw [tick_exchange]
  cases hj : s.exchanges[j]? with
  | none => exact ⟨e, he, rfl, rfl⟩
  | some e3 =>
    by_cases hd : e3.is_dead
    · simp only [hd, if_true]
      exact ⟨e, he, rfl, rfl⟩
    · simp only [hd, Bool.false_eq_true, if_false]
      by_cases hdr : (randint s.rng (e3.z ^ RUIN_DECAY)).1 = 0
      · simp only [hdr, if_true]
        by_cases hjeq : j2 = j
        · subst hjeq
          have hlt : j2 < s.exchanges.length := (List.getElem?_eq_some_iff.mp he).1
          refine ⟨_, List.getElem?_set_eq_of_lt _ hlt, ?_, ?_⟩ <;>
            rw [he] at hj <;> rw [Option.some_inj.mp hj]
        · exact ⟨e, by rw [List.getElem?_set_ne (by omega)]; exact he, rfl, rfl⟩
      · simp only [hdr, if_false]
        exact ⟨e, he, rfl, rfl⟩

theorem tick_exchange_exchanges_length (s : SimState) (j n : ℕ) :
    (tick_exchange s j n).exchanges.length = s.exchanges.length := by
  rw [tick_exchange]
  cases hj : s.exchanges[j]? with
  | none => rfl
  | some e =>
    by_cases hd : e.is_dead
    · simp only [hd, if_true]
    · simp only [hd, Bool.false_eq_true, if_false]
      by_cases hdr : (randint s.rng (e.z ^ RUIN_DECAY)).1 = 0
      · simp only [hdr, if_true, List.length_set]
      · simp only [hdr, if_false]

theorem receive_payoff_advance_inv (t : Trader) (z : ℕ) (p : ℝ) (k : ℕ)
    (h : (t.tick = k - 1 ∧ ∀ z2 ∈ t.exchanges, (t.account_series z2).length = max 1 k)
       ∨ (t.tick = k ∧ ∀ z2 ∈ t.exchanges, (t.account_series z2).length = max 1 (k + 1))) :
    (t.receive_payoff z p k).tick = k
    ∧ ∀ z2 ∈ (t.receive_payoff z p k).exchanges,
        ((t.receive_payoff z p k).account_series z2).length = max 1 (k + 1) := by
  rcases h with ⟨htick, hlen⟩ | ⟨htick, hlen⟩
  · by_cases hk : k > t.tick
    · have hk1 : 1 ≤ k := by omega
      constructor
      · rw [receive_payoff_tick, if_pos hk]
      · intro z2 hz2
        rw [receive_payoff_exchanges] at hz2
        rw [receive_payoff_series, if_pos hk, record_balances_series_mem t t.tick z2 hz2]
        rw [List.length_append, hlen z2 hz2]
        rw [Nat.max_eq_right hk1, Nat.max_eq_right (by omega : 1 ≤ k + 1)]
        simp
    · have hk0 : k = 0 := by omega
      subst hk0
      constructor
      · rw [receive_payoff_tick, if_neg hk, htick]
      · intro z2 hz2
        rw [receive_payoff_exchanges] at hz2
        rw [receive_payoff_series, if_neg hk]
        simpa using hlen z2 hz2
  · have hk : ¬ k > t.tick := by omega
    constructor
    · rw [receive_payoff_tick, if_neg hk, htick]
    · intro z2 hz2
      rw [receive_payoff_exchanges] at hz2
      rw [receive_payoff_series, if_neg hk]
      exact hlen z2 hz2

theorem notify_traders_getElem_post (z : ℕ) (p : ℝ) (k : ℕ) (ids : List ℕ) :
    ∀ (ts : List Trader) (i : ℕ) (t : Trader), ts[i]? = some t →
      (t.tick = k ∧ ∀ z2 ∈ t.exchanges, (t.account_series z2).length = max 1 (k + 1)) →
      ∃ t2, (notify_traders ts ids z p k)[i]? = some t2
        ∧ t2.tick = k ∧ ∀ z2 ∈ t2.exchanges, (t2.account_series z2).length = max 1 (k + 1) := by
  induction ids with
  | nil => intro ts i t hts ht; exact ⟨t, by simpa [notify_traders] using hts, ht⟩
  | cons j rest ih =>
    intro ts i t hts ht
    have hshow : notify_traders ts (j :: rest) z p k
        = notify_traders (update_trader ts j (fun t2 => t2.receive_payoff z p k)) rest z p k := rfl
    rw [hshow]
    by_cases hij : i = j
    · subst hij
      have hup : (update_trader ts i (fun t2 => t2.receive_payoff z p k))[i]?
          = some (t.receive_payoff z p k) := by
        rw [update_trader_getElem, if_pos rfl, hts]
        rfl
      exact ih _ i (t.receive_payoff z p k) hup (receive_payoff_advance_inv t z p k (Or.inr ht))
    · have hup : (update_trader ts j (fun t2 => t2.receive_payoff z p k))[i]? = some t := by
        rw [update_trader_getElem, if_neg hij]
        exact hts
      exact ih _ i t hup ht

theorem notify_traders_getElem_reach (z : ℕ) (p : ℝ) (k : ℕ) (ids : List ℕ) :
    ∀ (ts : List Trader) (i : ℕ) (t : Trader), ts[i]? = some t → i ∈ ids →
      ((t.tick = k - 1 ∧ ∀ z2 ∈ t.exchanges, (t.account_series z2).length = max 1 k)
        ∨ (t.tick = k ∧ ∀ z2 ∈ t.exchanges, (t.account_series z2).length = max 1 (k + 1))) →
      ∃ t2, (notify_traders ts ids z p k)[i]? = some t2
        ∧ t2.tick = k ∧ ∀ z2 ∈ t2.exchanges, (t2.account_series z2).length = max 1 (k + 1) := by
  induction ids with
  | nil => intro ts i t _ hmem; simp at hmem
  | cons j rest ih =>
    intro ts i t hts hmem hinv
    have hshow : notify_traders ts (j :: rest) z p k
        = notify_traders (update_trader ts j (fun t2 => t2.receive_payoff z p k)) rest z p k := rfl
    rw [hshow]
    by_cases hij : i = j
    · subst hij
      have hup : (update_trader ts i (fun t2 => t2.receive_payoff z p k))[i]?
          = some (t.receive_payoff z p k) := by
        rw [update_trader_getElem, if_pos rfl, hts]
        rfl
      exact notify_traders_getElem_post z p k rest _ i (t.receive_payoff z p k) hup
        (receive_payoff_advance_inv t z p k hinv)
    · have hmem2 : i ∈ rest := by
        rcases List.mem_cons.mp hmem with h1 | h1
        · exact absurd h1 hij
        · exact h1
      have hup : (update_trader ts j (fun t2 => t2.receive_payoff z p k))[i]? = some t := by
        rw [update_trader_getElem, if_neg hij]
        exact hts
      exact ih _ i t hup hmem2 hinv

theorem tick_exchange_traders_reach (s : SimState) (j k i : ℕ) (e : Exchange) (t : Trader)
    (he : s.exchanges[j]? = some e) (hmem : i ∈ e.traders) (hts : s.traders[i]? = some t)
    (hinv : (t.tick = k - 1 ∧ ∀ z2 ∈ t.exchanges, (t.account_series z2).length = max 1 k)
      ∨ (t.tick = k ∧ ∀ z2 ∈ t.exchanges, (t.account_series z2).length = max 1 (k + 1))) :
    ∃ t2, (tick_exchange s j k).traders[i]? = some t2
      ∧ t2.tick = k ∧ ∀ z2 ∈ t2.exchanges, (t2.account_series z2).length = max 1 (k + 1) := by
  rw [tick_exchange, he]
  by_cases hd : e.is_dead
  · simp only [hd, if_true]
    exact notify_traders_getElem_reach e.z 0 k e.traders s.traders i t hts hmem hinv
  · simp only [hd, Bool.false_eq_true, if_false]
    by_cases hdr : (randint s.rng (e.z ^ RUIN_DECAY)).1 = 0
    · simp only [hdr, if_true]
      exact notify_traders_getElem_reach e.z NEGATIVE_INFINITY k e.traders s.traders i t hts hmem hinv
    · simp only [hdr, if_false]
      exact notify_traders_getElem_reach e.z _ k e.traders s.traders i t hts hmem hinv

theorem tick_exchange_traders_keep (s : SimState) (j k i : ℕ) (t : Trader)
    (hts : s.traders[i]? = some t)
    (hpost : t.tick = k ∧ ∀ z2 ∈ t.exchanges, (t.account_series z2).length = max 1 (k + 1)) :
    ∃ t2, (tick_exchange s j k).traders[i]? = some t2
      ∧ t2.tick = k ∧ ∀ z2 ∈ t2.exchanges, (t2.account_series z2).length = max 1 (k + 1) := by
  rw [tick_exchange]
  cases hj : s.exchanges[j]? with
  | none => exact ⟨t, hts, hpost⟩
  | some e =>
    by_cases hd : e.is_dead
    · simp only [hd, if_true]
      exact notify_traders_getElem_post e.z 0 k e.traders s.traders i t hts hpost
    · simp only [hd, Bool.false_eq_true, if_false]
      by_cases hdr : (randint s.rng (e.z ^ RUIN_DECAY)).1 = 0
      · simp only [hdr, if_true]
        exact notify_traders_getElem_post e.z NEGATIVE_INFINITY k e.traders s.traders i t hts hpost
      · simp only [hdr, if_false]
        exact notify_traders_getElem_post e.z _ k e.traders s.traders i t hts hpost

theorem step_fold_keep (k : ℕ) (js : List ℕ) :
    ∀ (s : SimState) (i : ℕ) (t : Trader), s.traders[i]? = some t →
      (t.tick = k ∧ ∀ z2 ∈ t.exchanges, (t.account_series z2).length = max 1 (k + 1)) →
      ∃ t2, ((js.foldl (fun st j2 => tick_exchange st j2 k) s).traders)[i]? = some t2
        ∧ t2.tick = k ∧ ∀ z2 ∈ t2.exchanges, (t2.account_series z2).length = max 1 (k + 1) := by
  induction js with
  | nil => intro s i t hts hpost; exact ⟨t, by simpa using hts, hpost⟩
  | cons j rest ih =>
    intro s i t hts hpost
    rw [List.foldl_cons]
    rcases tick_exchange_traders_keep s j k i t hts hpost with ⟨t2, ht2, hpost2⟩
    exact ih (tick_exchange s j k) i t2 ht2 hpost2

theorem step_fold_reach (k : ℕ) (js : List ℕ) :
    ∀ (s : SimState), (∀ t ∈ s.traders,
        (t.tick = k - 1 ∧ ∀ z2 ∈ t.exchanges, (t.account_series z2).length = max 1 k)
        ∨ (t.tick = k ∧ ∀ z2 ∈ t.exchanges, (t.account_series z2).length = max 1 (k + 1))) →
      ∀ (i j : ℕ) (e : Exchange) (t : Trader), j ∈ js → s.exchanges[j]? = some e →
        i ∈ e.traders → s.traders[i]? = some t →
        ∃ t2, ((js.foldl (fun st j2 => tick_exchange st j2 k) s).traders)[i]? = some t2
          ∧ t2.tick = k ∧ ∀ z2 ∈ t2.exchanges, (t2.account_series z2).length = max 1 (k + 1) := by
  induction js with
  | nil => intro s _ i j e t hj; simp at hj
  | cons j0 rest ih =>
    intro s hall i j e t hj he hmem hts
    rw [List.foldl_cons]
    by_cases hjj : j = j0
    · subst hjj
      rcases tick_exchange_traders_reach s j k i e t he hmem hts (hall t (List.getElem?_mem hts))
        with ⟨t2, ht2, hpost2⟩
      exact step_fold_keep k rest (tick_exchange s j k) i t2 ht2 hpost2
    · have hj2 : j ∈ rest := by
        rcases List.mem_cons.mp hj with h1 | h1
        · exact absurd h1 hjj
        · exact h1
      have hall2 : ∀ t2 ∈ (tick_exchange s j0 k).traders,
          (t2.tick = k - 1 ∧ ∀ z2 ∈ t2.exchanges, (t2.account_series z2).length = max 1 k)
          ∨ (t2.tick = k ∧ ∀ z2 ∈ t2.exchanges, (t2.account_series z2).length = max 1 (k + 1)) := by
        apply tick_exchange_traders_forall _ s j0 k ?_ hall
        intro t3 z3 p3 h3
        exact Or.inr (receive_payoff_advance_inv t3 z3 p3 k h3)
      rcases tick_exchange_exchange_frame s j0 k j e he with ⟨e2, he2, _, htr2⟩
      have hlen : i < (tick_exchange s j0 k).traders.length := by
        rw [tick_exchange_traders_length]
        exact (List.getElem?_eq_some_iff.mp hts).1
      rcases List.getElem?_eq_some_iff.mpr ⟨hlen, rfl⟩ with hts2
      exact ih (tick_exchange s j0 k) hall2 i j e2
        ((tick_exchange s j0 k).traders.get ⟨i, hlen⟩) hj2 he2 (htr2 ▸ hmem)
        (by simp only [List.get_eq_getElem]; exact hts2)

theorem step_exchanges_traders_length (s : SimState) (k : ℕ) :
    (step_exchanges s k).traders.length = s.traders.length := by
  rw [step_exchanges]
  exact foldl_preserves_sim (fun st => st.traders.length = s.traders.length)
    (fun st j => tick_exchange st j k)
    (fun st j h => by
      show (tick_exchange st j k).traders.length = s.traders.length
      rw [tick_exchange_traders_length]; exact h)
    (List.range s.exchanges.length) s rfl

theorem step_exchanges_exchange_frame (s : SimState) (k j2 : ℕ) (e : Exchange)
    (he : s.exchanges[j2]? = some e) :
    ∃ e2, (step_exchanges s k).exchanges[j2]? = some e2
      ∧ e2.z = e.z ∧ e2.traders = e.traders := by
  rw [step_exchanges]
  refine foldl_preserves_sim
    (fun st => ∃ e2, st.exchanges[j2]? = some e2 ∧ e2.z = e.z ∧ e2.traders = e.traders)
    (fun st j => tick_exchange st j k) ?_
    (List.range s.exchanges.length) s ⟨e, he, rfl, rfl⟩
  rintro st j ⟨e2, he2, hz2, ht2⟩
  rcases tick_exchange_exchange_frame st j k j2 e2 he2 with ⟨e3, he3, hz3, ht3⟩
  exact ⟨e3, he3, by rw [hz3, hz2], by rw [ht3, ht2]⟩

theorem step_exchanges_cov (s : SimState) (k : ℕ)
    (hcov : ∀ i, i < s.traders.length →
      ∃ (j : ℕ) (e : Exchange), s.exchanges[j]? = some e ∧ i ∈ e.traders) :
    ∀ i, i < (step_exchanges s k).traders.length →
      ∃ (j : ℕ) (e : Exchange), (step_exchanges s k).exchanges[j]? = some e ∧ i ∈ e.traders := by
  intro i hi
  rw [step_exchanges_traders_length] at hi
  rcases hcov i hi with ⟨j, e, he, hmem⟩
  rcases step_exchanges_exchange_frame s k j e he with ⟨e2, he2, _, htr⟩
  exact ⟨j, e2, he2, htr ▸ hmem⟩

theorem step_exchanges_advances (s : SimState) (k : ℕ)
    (hall : ∀ t ∈ s.traders,
      t.tick = k - 1 ∧ ∀ z2 ∈ t.exchanges, (t.account_series z2).length = max 1 k)
    (hcov : ∀ i, i < s.traders.length →
      ∃ (j : ℕ) (e : Exchange), s.exchanges[j]? = some e ∧ i ∈ e.traders) :
    ∀ t ∈ (step_exchanges s k).traders,
      t.tick = k ∧ ∀ z2 ∈ t.exchanges, (t.account_series z2).length = max 1 (k + 1) := by
  intro t ht
  rcases List.mem_iff_getElem?.mp ht with ⟨i, hi⟩
  have hilen : i < (step_exchanges s k).traders.length := (List.getElem?_eq_some_iff.mp hi).1
  have hilen2 : i < s.traders.length := by
    rwa [step_exchanges_traders_length] at hilen
  rcases hcov i hilen2 with ⟨j, e, he, hmem⟩
  have hjlen : j < s.exchanges.length := (List.getElem?_eq_some_iff.mp he).1
  have hts : s.traders[i]? = some (s.traders.get ⟨i, hilen2⟩) := by
    simp
  rcases step_fold_reach k (List.range s.exchanges.length) s
      (fun t2 ht2 => Or.inl (hall t2 ht2)) i j e (s.traders.get ⟨i, hilen2⟩)
      (List.mem_range.mpr hjlen) he hmem hts with ⟨t2, ht2, hpost⟩
  rw [step_exchanges] at hi
  rw [hi] at ht2
  rw [Option.some_inj.mp ht2]
  exact hpost

theorem run_simulation_succ (s : SimState) (k : ℕ) :
    run_simulation s (k + 1) = step_exchanges (run_simulation s k) k := by
  rw [run_simulation, run_simulation, List.range_succ, List.foldl_append, List.foldl_cons,
    List.foldl_nil]

theorem run_simulation_master (s : SimState)
    (hcov : ∀ i, i < s.traders.length →
      ∃ (j : ℕ) (e : Exchange), s.exchanges[j]? = some e ∧ i ∈ e.traders)
    (hinit : ∀ t ∈ s.traders,
      t.tick = 0 ∧ ∀ z ∈ t.exchanges, (t.account_series z).length = 1) :
    ∀ k : ℕ,
      (∀ t ∈ (run_simulation s k).traders,
        t.tick = k - 1 ∧ ∀ z ∈ t.exchanges, (t.account_series z).length = max 1 k)
      ∧ (∀ i, i < (run_simulation s k).traders.length →
          ∃ (j : ℕ) (e : Exchange), (run_simulation s k).exchanges[j]? = some e ∧ i ∈ e.traders) := by
  intro k
  induction k with
  | zero =>
    constructor
    · intro t ht
      have h0 : run_simulation s 0 = s := rfl
      rw [h0] at ht
      rcases hinit t ht with ⟨h1, h2⟩
      exact ⟨h1, fun z hz => by rw [h2 z hz]; rfl⟩
    · intro i hi
      exact hcov i hi
  | succ k ih =>
    rw [run_simulation_succ]
    constructor
    · intro t ht
      have := step_exchanges_advances (run_simulation s k) k ih.1 ih.2 t ht
      rcases this with ⟨h1, h2⟩
      exact ⟨by omega, h2⟩
    · exact step_exchanges_cov (run_simulation s k) k ih.2

theorem mem_exchanges_perm (l : List α) (b : ℕ) (v : α) (hv : v ∈ exchanges_perm l b) :
    v ∈ l := by
  rw [exchanges_perm_eq] at hv
  rcases List.mem_flatten.mp hv with ⟨blk, hblk, hvblk⟩
  rcases List.mem_map.mp hblk with ⟨x, hx, rfl⟩
  rw [(List.mem_replicate.mp hvblk).2]
  exact hx

theorem init_state_cov (N b mr : ℕ) (hN : 1 ≤ N) (hb : 1 ≤ b) (rng : Rng) :
    ∀ i, i < (init_state N b mr rng).traders.length →
      ∃ (j : ℕ) (e : Exchange), (init_state N b mr rng).exchanges[j]? = some e
        ∧ i ∈ e.traders := by
  intro i hi
  have hws : ∀ w ∈ contiguous_sublists_size_n
      (exchanges_perm (List.range (generate_exchanges N mr).length) b) b,
      w ≠ [] ∧ ∀ j ∈ w, j < (generate_exchanges N mr).length := by
    intro w hw
    rcases List.mem_iff_getElem?.mp hw with ⟨iw, hiw⟩
    have hiwlt : iw < (exchanges_perm (List.range (generate_exchanges N mr).length) b).length
        - (b - 1) := by
      have := (List.getElem?_eq_some_iff.mp hiw).1
      rwa [contiguous_length] at this
    rw [contiguous_getElem _ _ _ hiwlt] at hiw
    have hw2 : w = ((exchanges_perm (List.range (generate_exchanges N mr).length) b).drop iw).take b :=
      (Option.some_inj.mp hiw).symm
    have hpermlen : (exchanges_perm (List.range (generate_exchanges N mr).length) b).length
        = N * b := by
      rw [length_exchanges_perm]
      simp [generate_exchanges_length]
    have hble : b ≤ N * b := Nat.le_mul_of_pos_left b hN
    have hwlen : w.length = b := by
      rw [hw2, List.length_take, List.length_drop, hpermlen]
      rw [hpermlen] at hiwlt
      omega
    constructor
    · apply List.ne_nil_of_length_pos
      omega
    · intro j hj
      have hjperm : j ∈ exchanges_perm (List.range (generate_exchanges N mr).length) b := by
        rw [hw2] at hj
        exact List.mem_of_mem_drop (List.mem_of_mem_take hj)
      have := mem_exchanges_perm _ _ _ hjperm
      exact List.mem_range.mp this
  have hlen : (init_state N b mr rng).traders.length
      = (contiguous_sublists_size_n
          (exchanges_perm (List.range (generate_exchanges N mr).length) b) b).length := by
    show (generate_traders (generate_exchanges N mr) b).2.length = _
    rw [generate_traders, build_traders_snd_length]
  rw [hlen] at hi
  rcases build_traders_coverage (1 / (b : ℝ))
      (contiguous_sublists_size_n
        (exchanges_perm (List.range (generate_exchanges N mr).length) b) b)
      (generate_exchanges N mr) 0 hws i hi with ⟨j, e, he, hmem⟩
  refine ⟨j, e, ?_, by simpa using hmem⟩
  show (generate_traders (generate_exchanges N mr) b).1[j]? = some e
  rw [generate_traders]
  exact he

theorem init_state_seeded (N b mr : ℕ) (rng : Rng) :
    ∀ t ∈ (init_state N b mr rng).traders,
      t.tick = 0 ∧ ∀ z ∈ t.exchanges, (t.account_series z).length = 1 := by
  intro t ht
  rcases List.mem_iff_getElem?.mp ht with ⟨i, hi⟩
  have hi2 : (generate_traders (generate_exchanges N mr) b).2[i]? = some t := hi
  rw [generate_traders_snd_getElem] at hi2
  cases hw : (contiguous_sublists_size_n
      (exchanges_perm (List.range (generate_exchanges N mr).length) b) b)[i]? with
  | none => rw [hw] at hi2; exact Option.noConfusion hi2
  | some w =>
    rw [hw] at hi2
    have ht2 : t = Trader.init i (w.map (z_at (generate_exchanges N mr))) (1 / (b : ℝ)) :=
      (Option.some_inj.mp hi2).symm
    subst ht2
    refine ⟨rfl, ?_⟩
    intro z hz
    rw [trader_init_exchanges] at hz
    rw [Trader.init]
    simp only
    rw [if_pos hz]
    rfl

/-- Claim C5: running the simulation from the generated setup for `S ≥ 1`
steps with no trailing flush leaves every trader's series for every held
venue with exactly `S` entries (the seeded entry plus one recorded entry per
step except the last: the final step's balances are never appended), and at
every intermediate point all of a trader's per-venue series have equal
length. -/
theorem c5_final_step_not_recorded (N b mr : ℕ) (hN : 1 ≤ N) (hb : 1 ≤ b) (rng : Rng) :
    (∀ S, 1 ≤ S → ∀ t ∈ (run_simulation (init_state N b mr rng) S).traders,
        ∀ z ∈ t.exchanges, (t.account_series z).length = S)
    ∧ (∀ k, ∀ t ∈ (run_simulation (init_state N b mr rng) k).traders,
        ∀ z1 ∈ t.exchanges, ∀ z2 ∈ t.exchanges,
          (t.account_series z1).length = (t.account_series z2).length) := by
  have master := run_simulation_master (init_state N b mr rng)
    (init_state_cov N b mr hN hb rng) (init_state_seeded N b mr rng)
  constructor
  · intro S hS t ht z hz
    rw [((master S).1 t ht).2 z hz]
    exact Nat.max_eq_right hS
  · intro k t ht z1 h1 z2 h2
    rw [((master k).1 t ht).2 z1 h1, ((master k).1 t ht).2 z2 h2]

theorem c5_final_step_not_recorded_witness :
    ((run_simulation (init_state 2 1 30 ⟨fun _ => 1, fun _ => 0, 0, 0⟩) 1).traders[0]?).map
      (fun t => (t.account_series 30).length) = some 1 := by
  have hc := (c5_final_step_not_recorded 2 1 30 (by norm_num) (by norm_num)
      ⟨fun _ => 1, fun _ => 0, 0, 0⟩).1 1 (by norm_num)
  have h0 : ((run_simulation (init_state 2 1 30 ⟨fun _ => 1, fun _ => 0, 0, 0⟩) 1).traders[0]?).map
      Trader.exchanges = some [30] := by rfl
  cases ht0 : (run_simulation (init_state 2 1 30 ⟨fun _ => 1, fun _ => 0, 0, 0⟩) 1).traders[0]? with
  | none => rw [ht0] at h0; exact Option.noConfusion h0
  | some t0 =>
    rw [ht0] at h0
    have hex : t0.exchanges = [30] := by simpa using h0
    have := hc t0 (List.getElem?_mem ht0) 30 (by rw [hex]; simp)
    simp [this]
